import Mathlib

/-!
Verification of the SSH-config text model and session state machine of the
`list-ssh-hosts` tool (`main.go`), over a shallow embedding.

Strings are modelled as lists of characters; a config file's text is split
into lines at the newline character, mirroring `strings.Split(content, "\n")`
for the deletion path and `bufio.ScanLines` (which additionally drops a final
empty token and a trailing carriage return per line) for the parsing path.

Definitions named after Go functions (`parseSSHConfig`, `deleteHostFromConfig`,
`getHostBlock`, `getAllHostBlocks`, `getProxyJumpHost`, `findDependents`,
`updateModel`, `mainEpilogue`) are translated from the source; definitions with
`Spec` in their name transcribe the natural-language specification and are
related to the source-side definitions by the theorems below.
-/

/-- A Go string, modelled as its list of characters. -/
abbrev Str := List Char

/-- Go's `unicode.IsSpace`: the White_Space property. -/
def goIsSpace (c : Char) : Bool :=
  c = ' ' || (9 ≤ c.toNat && c.toNat ≤ 13) ||
  c.toNat = 0x85 || c.toNat = 0xA0 || c.toNat = 0x1680 ||
  (0x2000 ≤ c.toNat && c.toNat ≤ 0x200A) ||
  c.toNat = 0x2028 || c.toNat = 0x2029 || c.toNat = 0x202F ||
  c.toNat = 0x205F || c.toNat = 0x3000

/-- Go's `unicode.ToLower`, restricted to its effect on characters whose
simple lower-case mapping is an ASCII letter (`A`-`Z`, the dotted capital I
U+0130, and the Kelvin sign U+212A); all other characters are kept as they
are.  Only ASCII prefixes of the lower-cased string are ever inspected by the
source, and no other character lower-cases into the ASCII range, so this
agrees with Go wherever the result is compared against an ASCII literal. -/
def goToLowerChar (c : Char) : Char :=
  if 'A' ≤ c ∧ c ≤ 'Z' then Char.ofNat (c.toNat + 32)
  else if c.toNat = 0x130 then 'i'
  else if c.toNat = 0x212A then 'k'
  else c

/-- Go's `strings.ToLower`. -/
def goToLower (s : Str) : Str := s.map goToLowerChar

/-- Go's `strings.HasPrefix s p` (`startsWithL s p` means `s` starts with `p`). -/
def startsWithL : Str → Str → Bool
  | _, [] => true
  | [], _ :: _ => false
  | c :: cs, p :: ps => c = p && startsWithL cs ps

/-- Left part of Go's `strings.TrimSpace`. -/
def goTrimLeft (s : Str) : Str := s.dropWhile goIsSpace

/-- Right part of Go's `strings.TrimSpace`. -/
def goTrimRight (s : Str) : Str := (s.reverse.dropWhile goIsSpace).reverse

/-- Go's `strings.TrimSpace`. -/
def goTrimSpace (s : Str) : Str := goTrimRight (goTrimLeft s)

/-- Accumulator loop for `goFields`; `cur` is the current run of
non-whitespace characters, in reverse order. -/
def goFieldsGo (cur : Str) : Str → List Str
  | [] => if cur.isEmpty then [] else [cur.reverse]
  | c :: cs =>
    if goIsSpace c then
      if cur.isEmpty then goFieldsGo [] cs else cur.reverse :: goFieldsGo [] cs
    else goFieldsGo (c :: cur) cs

/-- Go's `strings.Fields`: the maximal runs of non-whitespace characters. -/
def goFields (s : Str) : List Str := goFieldsGo [] s

/-- Go's `strings.ContainsAny s chars`. -/
def goContainsAny (s : Str) (chars : Str) : Bool := s.any (fun c => chars.contains c)

/-- The wildcard-class characters excluded from emitted host entries. -/
def wildcardChars : Str := ['*', '?', '[', ']', '!']

/-- The `contains` helper of `main.go`: membership of a string in a slice. -/
def containsStr (slice : List Str) (item : Str) : Bool := slice.contains item

/-- Whether a raw line is a `Host` directive line: its trimmed, lower-cased
form starts with `"host "`. -/
def isHostLine (line : Str) : Bool :=
  startsWithL (goToLower (goTrimSpace line)) ("host ".toList)

/-- The alias tokens of a `Host` line: all whitespace-separated fields of the
trimmed line after the directive word. -/
def aliasesOf (line : Str) : List Str := (goFields (goTrimSpace line)).tail

/-- Whether a raw line is indented, i.e. starts with a space or tab
(`strings.HasPrefix(line, " ") || strings.HasPrefix(line, "\t")`). -/
def lineIndented (line : Str) : Bool :=
  match line with
  | [] => false
  | c :: _ => c = ' ' || c = '\t'

/-- A `Host` line whose alias list contains `target` — the deletion test of
`deleteHostFromConfig` and the lookup test of `getHostBlock`. -/
def hostLineMentions (target line : Str) : Bool :=
  isHostLine line && containsStr (aliasesOf line) target

/-- The `Hostname` directive value carried by a line, when present: the
trimmed, lower-cased line starts with `"hostname "` and has a second
whitespace-separated field (the source assigns `parts[1]` only when
`len(parts) > 1`; otherwise the accumulated value is kept, which `none`
models). -/
def hostnameValue? (line : Str) : Option Str :=
  let t := goTrimSpace line
  if startsWithL (goToLower t) ("hostname ".toList) then
    match goFields t with
    | _ :: v :: _ => some v
    | _ => none
  else none

/-- The `User` directive value carried by a line, when present. -/
def userValue? (line : Str) : Option Str :=
  let t := goTrimSpace line
  if startsWithL (goToLower t) ("user ".toList) then
    match goFields t with
    | _ :: v :: _ => some v
    | _ => none
  else none

/-- The `ProxyJump` directive value carried by a line, when present (the
source returns `fields[1]` only when `len(fields) > 1` and otherwise keeps
scanning, which `none` models). -/
def proxyJumpValue? (line : Str) : Option Str :=
  let t := goTrimSpace line
  if startsWithL (goToLower t) ("proxyjump ".toList) then
    match goFields t with
    | _ :: v :: _ => some v
    | _ => none
  else none

/-! ### Line splitting and joining -/

/-- Go's `strings.Split(s, "\n")`. -/
def splitNl : Str → List Str
  | [] => [[]]
  | c :: cs =>
    match splitNl cs with
    | [] => [[]]
    | r :: rs => if c = '\n' then [] :: r :: rs else (c :: r) :: rs

/-- Go's `strings.Join(lines, "\n")`. -/
def joinNl : List Str → Str
  | [] => []
  | [l] => l
  | l :: l2 :: ls => l ++ '\n' :: joinNl (l2 :: ls)

/-- The `dropCR` step of `bufio.ScanLines`: remove one trailing `\r`. -/
def dropCR (line : Str) : Str :=
  if line.getLast? = some '\r' then line.dropLast else line

/-- The lines delivered by a `bufio.Scanner` with `ScanLines` over `text`:
split at `\n`, drop the final token when the text ends with a newline (or is
empty), and strip one trailing `\r` from each token. -/
def scanLines (text : Str) : List Str :=
  let ps := splitNl text
  (if ps.getLast? = some [] then ps.dropLast else ps).map dropCR

/-! ### parseSSHConfig -/

/-- One row of the host list: alias and the derived display hint
(`user@hostname`, `hostname`, or empty). -/
structure HostItem where
  host : Str
  desc : Str
deriving DecidableEq, Repr

/-- The flush step of `parseSSHConfig`: emit one `HostItem` per non-wildcard
alias of the group, with the accumulated hostname/user resolved into the
display hint.  This code appears twice in the source (at each new `Host` line
and at end of input). -/
def flushHosts (currentHosts : List Str) (currentHostname currentUser : Str) :
    List HostItem :=
  currentHosts.filterMap (fun h =>
    if goContainsAny h wildcardChars then none
    else some ⟨h,
      if currentHostname ≠ [] ∧ currentUser ≠ [] then
        currentUser ++ '@' :: currentHostname
      else if currentHostname ≠ [] then currentHostname
      else []⟩)

/-- The scanner loop of `parseSSHConfig`, carrying the current alias group and
the accumulated `Hostname`/`User` values.  Each raw line is trimmed; a line
whose lower-cased form starts with `"host "` flushes the previous group and
starts a new one; inside a group, a `Hostname `/`User ` directive line
overwrites the accumulated value (the assignment is unconditional in the
source, so a later occurrence replaces an earlier one). -/
def parseLoop : List Str → List Str → Str → Str → List HostItem
  | [], currentHosts, hn, us =>
    if currentHosts.isEmpty then [] else flushHosts currentHosts hn us
  | raw :: rest, currentHosts, hn, us =>
    if isHostLine raw then
      (if currentHosts.isEmpty then [] else flushHosts currentHosts hn us) ++
        parseLoop rest (aliasesOf raw) [] []
    else if currentHosts.isEmpty then
      parseLoop rest currentHosts hn us
    else
      parseLoop rest currentHosts
        (match hostnameValue? raw with
         | some v => v
         | none => hn)
        (match userValue? raw with
         | some v => v
         | none => us)

/-- `parseSSHConfig` on an explicit line sequence. -/
def parseSSHConfigLines (lines : List Str) : List HostItem := parseLoop lines [] [] []

/-- `parseSSHConfig` on the config text (the file read and scanned into
lines; the I/O failure path is outside the text model). -/
def parseSSHConfig (text : Str) : List HostItem :=
  parseSSHConfigLines (scanLines text)

/-! ### deleteHostFromConfig -/

/-- The rewrite loop of `deleteHostFromConfig` over the lines of the file,
with the `skipBlock` and `inHostBlock` flags of the source. -/
def deleteLoop (target : Str) : List Str → Bool → Bool → List Str
  | [], _, _ => []
  | line :: rest, skipBlock, inHostBlock =>
    if isHostLine line then
      if containsStr (aliasesOf line) target then
        deleteLoop target rest true inHostBlock
      else
        line :: deleteLoop target rest false true
    else if skipBlock then
      if !line.isEmpty && !lineIndented line then
        line :: deleteLoop target rest false false
      else
        deleteLoop target rest skipBlock inHostBlock
    else
      line :: deleteLoop target rest skipBlock
        (if inHostBlock && !line.isEmpty && !lineIndented line then false
         else inHostBlock)

/-- `deleteHostFromConfig` as a text transformation: split the config text at
newlines, run the rewrite loop, and join back with newlines.  (Reading the
file and writing the result back with fixed permissions are I/O outside the
text model.) -/
def deleteHostFromConfig (text hostToDelete : Str) : Str :=
  joinNl (deleteLoop hostToDelete (splitNl text) false false)

/-! ### Host blocks and the proxy-jump graph -/

/-- The `hostBlock` struct of the source: the block's identifying name and
its verbatim lines. -/
structure hostBlock where
  hostName : Str
  lines : List Str
deriving DecidableEq, Repr

/-- The scanning loop of `getHostBlock`, emitting the collected lines in
order; an empty result at a terminator models the `break`. -/
def getHostBlockLoop (hostName : Str) : List Str → Bool → List Str
  | [], _ => []
  | line :: rest, inHostBlock =>
    if isHostLine line then
      if containsStr (aliasesOf line) hostName then
        line :: getHostBlockLoop hostName rest true
      else
        getHostBlockLoop hostName rest false
    else if inHostBlock then
      if !line.isEmpty && !lineIndented line then []
      else line :: getHostBlockLoop hostName rest true
    else
      getHostBlockLoop hostName rest false

/-- `getHostBlock`: the collected lines, named by the queried alias; `none`
when no `Host` line mentioned the alias (then nothing was ever collected). -/
def getHostBlock (lines : List Str) (hostName : Str) : Option hostBlock :=
  let hostLines := getHostBlockLoop hostName lines false
  if hostLines.isEmpty then none else some ⟨hostName, hostLines⟩

/-- The scanning loop of `getAllHostBlocks`, carrying the currently open
block.  A trimmed `Host` line always carries at least one alias, so the
source's `len(currentHosts) > 0` test only has its positive branch
reachable; the negative branch is kept here with the open block flushed. -/
def getAllHostBlocksLoop : List Str → Option hostBlock → Bool → List hostBlock
  | [], currentBlock, _ =>
    match currentBlock with
    | some b => [b]
    | none => []
  | line :: rest, currentBlock, inHostBlock =>
    if isHostLine line then
      let flushed := match currentBlock with
        | some b => [b]
        | none => []
      match aliasesOf line with
      | h :: _ => flushed ++ getAllHostBlocksLoop rest (some ⟨h, [line]⟩) true
      | [] => flushed ++ getAllHostBlocksLoop rest none inHostBlock
    else
      match inHostBlock, currentBlock with
      | true, some b =>
        if !line.isEmpty && !lineIndented line then
          b :: getAllHostBlocksLoop rest none false
        else
          getAllHostBlocksLoop rest (some ⟨b.hostName, b.lines ++ [line]⟩) true
      | _, _ => getAllHostBlocksLoop rest currentBlock inHostBlock

/-- `getAllHostBlocks`: all host blocks of the file, in file order, each named
by the first alias of its `Host` line. -/
def getAllHostBlocks (lines : List Str) : List hostBlock :=
  getAllHostBlocksLoop lines none false

/-- `getProxyJumpHost`: the value of the first `ProxyJump` directive among the
given lines (a directive line with no value is skipped), or empty. -/
def getProxyJumpHost : List Str → Str
  | [] => []
  | line :: rest =>
    match proxyJumpValue? line with
    | some v => v
    | none => getProxyJumpHost rest

/-- The dependents collection of `getHostInfo`: among all host blocks, those
whose `ProxyJump` equals the queried host name, in file order. -/
def findDependents (lines : List Str) (hostName : Str) : List hostBlock :=
  (getAllHostBlocks lines).filter (fun block => getProxyJumpHost block.lines == hostName)

/-! ### The session state machine -/

/-- The `screen` values of the model (`listScreen`, `passwordScreen`,
`spinnerScreen`). -/
inductive Screen where
  | listScreen
  | passwordScreen
  | spinnerScreen
deriving DecidableEq, Repr

/-- The messages relevant to the modelled state: key presses (by their
`msg.String()` value), the asynchronous login-probe result, and any other
message (window sizing, spinner ticks, …). -/
inductive TeaMsg where
  | keyMsg (s : Str)
  | loginResultMsg (success : Bool)
  | otherMsg
deriving DecidableEq, Repr

/-- The commands `Update` can return: nothing, `tea.Quit`, the batched
spinner-tick plus `tryLogin` probe, or a command coming from a delegated
widget update. -/
inductive TeaCmd where
  | noCmd
  | quitCmd
  | tryLoginCmd (host password : Str)
  | widgetCmd
deriving DecidableEq, Repr

/-- The fields of the `model` struct owned by the state machine (the embedded
widget models — list, text input, spinner, help — are external; of the text
input only its current value is modelled, as `pwInput`). -/
structure AppModel where
  screen : Screen
  selectedHost : Str
  selectedDesc : Str
  password : Str
  pwInput : Str
  errMsg : Str
  loggingIn : Bool
  shouldSSH : Bool
deriving DecidableEq, Repr

/-- The error message shown after a failed login probe. -/
def loginFailedMsg : Str := "Login failed: wrong password or SSH error.".toList

/-- The external collaborators of `Update`: the list widget's current
selection and the effect of a delegated `textinput.Update` on the input's
value. -/
structure UIEnv where
  selectedItem : Option HostItem
  pwInputUpdate : Str → TeaMsg → Str

/-- The `Update` method, projected onto the modelled fields.  Branches that
only touch external widgets (list navigation and resizing, spinner ticks,
the delete-and-reload of the host list, which changes no modelled field)
leave the model unchanged and return `widgetCmd` or `noCmd` as the source
does. -/
def updateModel (env : UIEnv) (m : AppModel) (msg : TeaMsg) : AppModel × TeaCmd :=
  match m.screen with
  | .listScreen =>
    match msg with
    | .keyMsg s =>
      if s = "ctrl+c".toList then (m, .quitCmd)
      else if s = "enter".toList then
        match env.selectedItem with
        | some selected =>
          ({ m with selectedHost := selected.host, selectedDesc := selected.desc,
                    pwInput := [], errMsg := [], screen := .passwordScreen }, .noCmd)
        | none => (m, .widgetCmd)
      else if s = "delete".toList ∨ s = "x".toList then
        match env.selectedItem with
        | some _ => (m, .noCmd)
        | none => (m, .widgetCmd)
      else (m, .widgetCmd)
    | _ => (m, .widgetCmd)
  | .passwordScreen =>
    match msg with
    | .keyMsg s =>
      if s = "esc".toList then
        ({ m with screen := .listScreen, errMsg := [] }, .noCmd)
      else if s = "enter".toList then
        ({ m with password := m.pwInput, errMsg := [], screen := .spinnerScreen,
                  loggingIn := true }, .tryLoginCmd m.selectedHost m.pwInput)
      else ({ m with pwInput := env.pwInputUpdate m.pwInput msg }, .widgetCmd)
    | _ => ({ m with pwInput := env.pwInputUpdate m.pwInput msg }, .widgetCmd)
  | .spinnerScreen =>
    match msg with
    | .loginResultMsg success =>
      if success then
        ({ m with loggingIn := false, shouldSSH := true }, .quitCmd)
      else
        ({ m with loggingIn := false, screen := .passwordScreen,
                  errMsg := loginFailedMsg, pwInput := [] }, .noCmd)
    | _ => (m, .widgetCmd)

/-- The interactive `ssh` invocation issued after the UI loop exits,
identified by the host and password passed to `sshpass`/`ssh`. -/
structure sshLaunch where
  host : Str
  password : Str
deriving DecidableEq, Repr

/-- The hand-off at the end of `main`: the interactive session is launched
exactly when `shouldSSH` is set and both the selected host and the password
are non-empty, with that host and password; `main` then returns regardless of
the session's exit status (the launched command's outcome is not inspected). -/
def mainEpilogue (shouldSSH : Bool) (selectedHost password : Str) : Option sshLaunch :=
  if shouldSSH && !selectedHost.isEmpty && !password.isEmpty then
    some ⟨selectedHost, password⟩
  else none

/-! ### Specification-side reference definitions -/

/-- Spec-side: the value resolved from a run of directive lines is the one on
the last line carrying the directive, or empty when none does. -/
def lastDirectiveValue (value? : Str → Option Str) (dirLines : List Str) : Str :=
  ((dirLines.filterMap value?).getLast?).getD []

/-- Spec-side: the value on the first `ProxyJump` directive line, or empty. -/
def firstProxyJumpValue (lines : List Str) : Str :=
  (lines.findSome? proxyJumpValue?).getD []

/-- Spec-side: the display hint of an entry, from the block's resolved
hostname and user. -/
def specDisplayHint (hostname user : Str) : Str :=
  if hostname ≠ [] ∧ user ≠ [] then user ++ '@' :: hostname
  else if hostname ≠ [] then hostname
  else []

/-- A line that does not start a new host block. -/
def notHostLine (l : Str) : Bool := !isHostLine l

/-- Spec-side: the parse-level grouping of a file — each `Host` line together
with the run of non-`Host` lines that follows it; content before the first
`Host` line is ignored. -/
def parseGroups : List Str → List (Str × List Str)
  | [] => []
  | raw :: rest =>
    if isHostLine raw then
      (raw, rest.takeWhile notHostLine) :: parseGroups (rest.dropWhile notHostLine)
    else parseGroups rest
termination_by lines => lines.length
decreasing_by
  · exact Nat.lt_succ_of_le ((List.dropWhile_sublist _).length_le)
  · simp

/-- Spec-side: the entries emitted for one group — one per non-wildcard
alias, in alias order, with the hint resolved from the group's directive
lines. -/
def specEntriesOfGroup (g : Str × List Str) : List HostItem :=
  (aliasesOf g.1).filterMap (fun a =>
    if goContainsAny a wildcardChars then none
    else some ⟨a, specDisplayHint (lastDirectiveValue hostnameValue? g.2)
                    (lastDirectiveValue userValue? g.2)⟩)

/-- Spec-side transcription of the parsing contract: for each host block in
file order, one entry per non-wildcard alias in alias order, with the display
hint derived from the block's resolved hostname and user. -/
def parseSpec (lines : List Str) : List HostItem :=
  (parseGroups lines).flatMap specEntriesOfGroup

/-- A line suppressed inside a deleted block: not itself a `Host` line, and
empty or indented. -/
def blockBodyLine (l : Str) : Bool := !isHostLine l && (l.isEmpty || lineIndented l)

/-- Spec-side transcription of the deletion contract (as amended): a `Host`
line whose alias list contains the target suppresses itself and the following
run of empty-or-indented non-`Host` lines; the line ending that run is then
processed normally (so it survives unless it is itself a `Host` line
mentioning the target); every other line passes through verbatim, in order. -/
def deleteSpec (target : Str) : List Str → List Str
  | [] => []
  | line :: rest =>
    if isHostLine line && containsStr (aliasesOf line) target then
      deleteSpec target (rest.dropWhile blockBodyLine)
    else line :: deleteSpec target rest
termination_by lines => lines.length
decreasing_by
  · exact Nat.lt_succ_of_le ((List.dropWhile_sublist _).length_le)
  · simp

/-! ### Sanity checks against the repository's own test expectations -/

example :
    parseSSHConfig ("Host host1 host2 host3\n    Hostname 1.2.3.4\n".toList) =
      [⟨"host1".toList, "1.2.3.4".toList⟩, ⟨"host2".toList, "1.2.3.4".toList⟩,
       ⟨"host3".toList, "1.2.3.4".toList⟩] := by decide

example :
    parseSSHConfig ("Host iphost\n    Hostname 10.0.0.1\n    User admin\n".toList) =
      [⟨"iphost".toList, "admin@10.0.0.1".toList⟩] := by decide

example :
    parseSSHConfig ("Host *\n    Hostname 1.2.3.4\nHost ?\nHost [abc]\n".toList) = [] := by
  decide

example : parseSSHConfig [] = [] := by decide

example :
    parseSSHConfig ("HOST p\n    Hostname 10.0.0.9\n    User admin\n".toList) =
      [⟨"p".toList, "admin@10.0.0.9".toList⟩] := by decide

example :
    deleteHostFromConfig
      ("Host a\n    Hostname 1.1.1.1\n\nHost b\n    Hostname 2.2.2.2\n".toList)
      ("a".toList) =
      ("Host b\n    Hostname 2.2.2.2\n".toList) := by decide

/-! ### Lemmas about line splitting and joining -/

theorem splitNl_ne_nil (s : Str) : splitNl s ≠ [] := by
  induction s with
  | nil => simp [splitNl]
  | cons c cs ih =>
    simp only [splitNl]
    cases h : splitNl cs with
    | nil => simp
    | cons r rs => by_cases hc : c = '\n' <;> simp [hc]

theorem not_nl_mem_splitNl (s : Str) : ∀ l ∈ splitNl s, '\n' ∉ l := by
  induction s with
  | nil =>
    intro l hl
    simp [splitNl] at hl
    simp [hl]
  | cons c cs ih =>
    intro l hl
    simp only [splitNl] at hl
    cases h : splitNl cs with
    | nil => exact absurd h (splitNl_ne_nil cs)
    | cons r rs =>
      rw [h] at hl
      have hr : '\n' ∉ r := ih r (by rw [h]; exact List.mem_cons_self r rs)
      have hrs : ∀ x ∈ rs, '\n' ∉ x := fun x hx =>
        ih x (by rw [h]; exact List.mem_cons_of_mem r hx)
      by_cases hc : c = '\n'
      · simp only [hc, eq_self_iff_true, if_true, List.mem_cons] at hl
        rcases hl with h1 | h1 | h1
        · simp [h1]
        · exact h1 ▸ hr
        · exact hrs l h1
      · simp only [if_neg hc, List.mem_cons] at hl
        rcases hl with h1 | h1
        · subst h1
          intro hmem
          rcases List.mem_cons.1 hmem with h2 | h2
          · exact hc h2.symm
          · exact hr h2
        · exact hrs l h1

theorem joinNl_splitNl (s : Str) : joinNl (splitNl s) = s := by
  induction s with
  | nil => rfl
  | cons c cs ih =>
    simp only [splitNl]
    cases h : splitNl cs with
    | nil => exact absurd h (splitNl_ne_nil cs)
    | cons r rs =>
      rw [h] at ih
      by_cases hc : c = '\n'
      · subst hc
        simp only [if_pos rfl, joinNl]
        rw [ih]
        rfl
      · simp only [if_neg hc]
        cases rs with
        | nil => simp only [joinNl] at ih ⊢; rw [ih]
        | cons r2 rs2 =>
          simp only [joinNl] at ih ⊢
          rw [List.cons_append, ih]

theorem splitNl_of_not_nl (l : Str) (h : '\n' ∉ l) : splitNl l = [l] := by
  induction l with
  | nil => rfl
  | cons c cs ih =>
    have hc : c ≠ '\n' := fun hc => h (hc ▸ List.mem_cons_self c cs)
    have hcs : '\n' ∉ cs := fun hm => h (List.mem_cons_of_mem c hm)
    simp only [splitNl, ih hcs, if_neg hc]

theorem splitNl_append_nl (l rest : Str) (h : '\n' ∉ l) :
    splitNl (l ++ '\n' :: rest) = l :: splitNl rest := by
  induction l with
  | nil =>
    simp only [List.nil_append, splitNl]
    cases hr : splitNl rest with
    | nil => exact absurd hr (splitNl_ne_nil rest)
    | cons r rs => simp
  | cons c cs ih =>
    have hc : c ≠ '\n' := fun hc => h (hc ▸ List.mem_cons_self c cs)
    have hcs : '\n' ∉ cs := fun hm => h (List.mem_cons_of_mem c hm)
    simp only [List.cons_append, splitNl, List.append_eq, ih hcs, if_neg hc]

theorem splitNl_joinNl : ∀ ls : List Str, ls ≠ [] → (∀ l ∈ ls, '\n' ∉ l) →
    splitNl (joinNl ls) = ls := by
  intro ls
  induction ls with
  | nil => intro h; exact absurd rfl h
  | cons l t ih =>
    intro _ hmem
    cases t with
    | nil =>
      simp only [joinNl]
      exact splitNl_of_not_nl l (hmem l (List.mem_cons_self l []))
    | cons l2 t2 =>
      simp only [joinNl]
      rw [splitNl_append_nl l _ (hmem l (List.mem_cons_self ..))]
      rw [ih (by simp) (fun x hx => hmem x (List.mem_cons_of_mem l hx))]

/-! ### Lemmas about the deletion rewrite loop -/

/-- Lines that no `Host` line mentions pass through the rewrite loop
unchanged (outside of a skipped region). -/
theorem deleteLoop_no_match (t : Str) :
    ∀ (xs : List Str), (∀ l ∈ xs, hostLineMentions t l = false) →
      ∀ i, deleteLoop t xs false i = xs := by
  intro xs
  induction xs with
  | nil => intro _ i; rfl
  | cons line rest ih =>
    intro hm i
    have hline := hm line (List.mem_cons_self ..)
    have hrest : ∀ l ∈ rest, hostLineMentions t l = false :=
      fun l hl => hm l (List.mem_cons_of_mem line hl)
    simp only [deleteLoop]
    cases hH : isHostLine line with
    | true =>
      have hC : containsStr (aliasesOf line) t = false := by
        simpa [hostLineMentions, hH] using hline
      simp [hC, ih hrest]
    | false => simp [ih hrest]

/-- Every line the rewrite loop outputs is an input line. -/
theorem deleteLoop_subset (t : Str) :
    ∀ (xs : List Str) (s i : Bool) (l : Str), l ∈ deleteLoop t xs s i → l ∈ xs := by
  intro xs
  induction xs with
  | nil => intro s i l h; simp [deleteLoop] at h
  | cons line rest ih =>
    intro s i l h
    simp only [deleteLoop] at h
    cases hH : isHostLine line with
    | true =>
      rw [hH] at h
      cases hC : containsStr (aliasesOf line) t with
      | true =>
        rw [hC] at h
        simp only [if_true] at h
        exact List.mem_cons_of_mem line (ih _ _ l h)
      | false =>
        rw [hC] at h
        simp at h
        rcases h with h1 | h1
        · exact h1 ▸ List.mem_cons_self ..
        · exact List.mem_cons_of_mem line (ih _ _ l h1)
    | false =>
      rw [hH] at h
      cases s with
      | true =>
        simp only [Bool.false_eq_true, if_false, if_true] at h
        cases hT : !line.isEmpty && !lineIndented line with
        | true =>
          rw [hT] at h
          simp at h
          rcases h with h1 | h1
          · exact h1 ▸ List.mem_cons_self ..
          · exact List.mem_cons_of_mem line (ih _ _ l h1)
        | false =>
          rw [hT] at h
          simp at h
          exact List.mem_cons_of_mem line (ih _ _ l h)
      | false =>
        simp at h
        rcases h with h1 | h1
        · exact h1 ▸ List.mem_cons_self ..
        · exact List.mem_cons_of_mem line (ih _ _ l h1)

/-- No line output by the rewrite loop is a `Host` line mentioning the
target: matching `Host` lines are always dropped. -/
theorem deleteLoop_output_no_match (t : Str) :
    ∀ (xs : List Str) (s i : Bool) (l : Str),
      l ∈ deleteLoop t xs s i → hostLineMentions t l = false := by
  intro xs
  induction xs with
  | nil => intro s i l h; simp [deleteLoop] at h
  | cons line rest ih =>
    intro s i l h
    simp only [deleteLoop] at h
    cases hH : isHostLine line with
    | true =>
      rw [hH] at h
      cases hC : containsStr (aliasesOf line) t with
      | true =>
        rw [hC] at h
        simp only [if_true] at h
        exact ih _ _ l h
      | false =>
        rw [hC] at h
        simp at h
        rcases h with h1 | h1
        · subst h1; simp [hostLineMentions, hC]
        · exact ih _ _ l h1
    | false =>
      rw [hH] at h
      cases s with
      | true =>
        simp only [Bool.false_eq_true, if_false, if_true] at h
        cases hT : !line.isEmpty && !lineIndented line with
        | true =>
          rw [hT] at h
          simp at h
          rcases h with h1 | h1
          · subst h1; simp [hostLineMentions, hH]
          · exact ih _ _ l h1
        | false =>
          rw [hT] at h
          simp at h
          exact ih _ _ l h
      | false =>
        simp at h
        rcases h with h1 | h1
        · subst h1; simp [hostLineMentions, hH]
        · exact ih _ _ l h1

/-- The `inHostBlock` flag of the rewrite loop never influences the output:
it is only ever read to recompute itself. -/
theorem deleteLoop_ignores_inHostBlock (t : Str) :
    ∀ (xs : List Str) (s i i' : Bool), deleteLoop t xs s i = deleteLoop t xs s i' := by
  intro xs
  induction xs with
  | nil => intro s i i'; rfl
  | cons line rest ih =>
    intro s i i'
    simp only [deleteLoop]
    cases hH : isHostLine line with
    | true =>
      cases hC : containsStr (aliasesOf line) t with
      | true => simp only [if_true]; exact ih true i i'
      | false => simp
    | false =>
      cases s with
      | true =>
        simp only [Bool.false_eq_true, if_false, if_true]
        cases hT : !line.isEmpty && !lineIndented line with
        | true => simp
        | false => simp only [Bool.false_eq_true, if_false]; exact ih true i i'
      | false =>
        simp only [Bool.false_eq_true, if_false]
        congr 1
        exact ih false _ _

/-- A prefix of lines that no `Host` line mentions passes through unchanged,
and the loop continues on the remainder outside of a skipped region. -/
theorem deleteLoop_append_no_match (t : Str) :
    ∀ (xs ys : List Str), (∀ l ∈ xs, hostLineMentions t l = false) →
      ∀ i, deleteLoop t (xs ++ ys) false i = xs ++ deleteLoop t ys false false := by
  intro xs
  induction xs with
  | nil =>
    intro ys _ i
    simpa using deleteLoop_ignores_inHostBlock t ys false i false
  | cons line rest ih =>
    intro ys hm i
    have hline := hm line (List.mem_cons_self ..)
    have hrest : ∀ l ∈ rest, hostLineMentions t l = false :=
      fun l hl => hm l (List.mem_cons_of_mem line hl)
    simp only [List.cons_append, deleteLoop]
    cases hH : isHostLine line with
    | true =>
      have hC : containsStr (aliasesOf line) t = false := by
        simpa [hostLineMentions, hH] using hline
      rw [hC]
      simp only [if_true, Bool.false_eq_true, if_false, List.append_eq]
      rw [ih ys hrest true]
    | false =>
      simp only [Bool.false_eq_true, if_false, List.append_eq]
      rw [ih ys hrest _]

/-- Inside a skipped region, a run of empty-or-indented non-`Host` lines is
suppressed entirely. -/
theorem deleteLoop_skip_body (t : Str) :
    ∀ (body ys : List Str) (i : Bool),
      (∀ l ∈ body, isHostLine l = false ∧ (l.isEmpty || lineIndented l) = true) →
      deleteLoop t (body ++ ys) true i = deleteLoop t ys true i := by
  intro body
  induction body with
  | nil => intro ys i _; rfl
  | cons line rest ih =>
    intro ys i hm
    obtain ⟨hH, hSk⟩ := hm line (List.mem_cons_self ..)
    have hrest := fun l hl => hm l (List.mem_cons_of_mem line hl)
    simp only [List.cons_append, deleteLoop]
    rw [hH]
    have hT : (!line.isEmpty && !lineIndented line) = false := by
      cases hie : line.isEmpty <;> cases hin : lineIndented line <;> simp_all
    rw [hT]
    simp only [Bool.false_eq_true, if_false, if_true, List.append_eq]
    exact ih ys i hrest

/-- Inside a skipped region, a line that ends the region — a `Host` line not
mentioning the target, or a non-empty non-indented line — survives, and so
does everything after it when no later `Host` line mentions the target. -/
theorem deleteLoop_resume (t : Str) (c : Str) (cs : List Str) (i : Bool)
    (hm : ∀ l ∈ c :: cs, hostLineMentions t l = false)
    (hhead : isHostLine c = true ∨ (c.isEmpty = false ∧ lineIndented c = false)) :
    deleteLoop t (c :: cs) true i = c :: cs := by
  have hc := hm c (List.mem_cons_self ..)
  have hcs : ∀ l ∈ cs, hostLineMentions t l = false :=
    fun l hl => hm l (List.mem_cons_of_mem c hl)
  simp only [deleteLoop]
  cases hH : isHostLine c with
  | true =>
    have hC : containsStr (aliasesOf c) t = false := by
      simpa [hostLineMentions, hH] using hc
    rw [hC]
    simp only [if_true, Bool.false_eq_true, if_false]
    rw [deleteLoop_no_match t cs hcs true]
  | false =>
    rcases hhead with h1 | ⟨hE, hI⟩
    · exact absurd h1 (by simp [hH])
    · have hT : (!c.isEmpty && !lineIndented c) = true := by simp [hE, hI]
      rw [hT]
      simp only [Bool.false_eq_true, if_false, if_true]
      rw [deleteLoop_no_match t cs hcs false]

/-! ### Claims C2 and C3: block-granular deletion, no-op and idempotence -/

/-- C2: deleting any single alias of a multi-alias `Host` line removes the
entire block — the `Host` line and every following empty-or-indented line up
to the next block-ending line — including all the other aliases of that
line, while all lines of other blocks (here: every line the target is not an
alias of) survive unchanged, so the aliases of all other blocks remain
present after deletion. -/
theorem deleteHostFromConfig_block_granular
    (pre body rest : List Str) (hl target : Str)
    (hnl : ∀ l ∈ pre ++ (hl :: (body ++ rest)), '\n' ∉ l)
    (hhost : isHostLine hl = true)
    (htgt : containsStr (aliasesOf hl) target = true)
    (_hmulti : 2 ≤ (aliasesOf hl).length)
    (hbody : ∀ l ∈ body, isHostLine l = false ∧ (l.isEmpty || lineIndented l) = true)
    (hpre : ∀ l ∈ pre, hostLineMentions target l = false)
    (hrest : ∀ l ∈ rest, hostLineMentions target l = false)
    (hrhead : rest = [] ∨ ∃ c cs, rest = c :: cs ∧
      (isHostLine c = true ∨ (c.isEmpty = false ∧ lineIndented c = false))) :
    deleteHostFromConfig (joinNl (pre ++ (hl :: (body ++ rest)))) target =
      joinNl (pre ++ rest) := by
  unfold deleteHostFromConfig
  rw [splitNl_joinNl _ (by simp) hnl]
  rw [deleteLoop_append_no_match target pre (hl :: (body ++ rest)) hpre false]
  have step1 : deleteLoop target (hl :: (body ++ rest)) false false = rest := by
    simp only [deleteLoop]
    rw [hhost, htgt]
    simp only [if_true]
    rw [deleteLoop_skip_body target body rest false hbody]
    rcases hrhead with h0 | ⟨c, cs, hceq, hc⟩
    · subst h0; rfl
    · subst hceq
      exact deleteLoop_resume target c cs false hrest hc
  rw [step1]

/-- Witness for C2 at a concrete config: deleting `b` out of `Host a b c`
removes the whole block; the preceding and following blocks survive. -/
theorem deleteHostFromConfig_block_granular_witness :
    deleteHostFromConfig
      (joinNl (["Host x".toList] ++ ("Host a b c".toList ::
        (["  Hostname 1.2.3.4".toList, "".toList] ++
          ["Host y".toList, "  User u".toList])))) ("b".toList) =
      joinNl (["Host x".toList] ++ ["Host y".toList, "  User u".toList]) :=
  deleteHostFromConfig_block_granular _ _ _ _ _
    (by decide) (by decide) (by decide) (by decide) (by decide) (by decide)
    (by decide)
    (Or.inr ⟨"Host y".toList, ["  User u".toList], rfl, Or.inl (by decide)⟩)

/-- C3: deleting a name that appears in no `Host` line's alias list is a
no-op (the output text equals the input text, and the operation never
fails), and deletion is idempotent: deleting the same name twice yields the
same text as deleting it once. -/
theorem deleteHostFromConfig_noop_idempotent (text target : Str) :
    ((∀ l ∈ splitNl text, hostLineMentions target l = false) →
      deleteHostFromConfig text target = text) ∧
    deleteHostFromConfig (deleteHostFromConfig text target) target =
      deleteHostFromConfig text target := by
  constructor
  · intro hm
    unfold deleteHostFromConfig
    rw [deleteLoop_no_match target (splitNl text) hm false, joinNl_splitNl]
  · unfold deleteHostFromConfig
    cases hys : deleteLoop target (splitNl text) false false with
    | nil =>
      have h1 : isHostLine ([] : Str) = false := by decide
      simp [joinNl, splitNl, deleteLoop, h1]
    | cons y ys =>
      have hmem0 : ∀ l ∈ y :: ys, l ∈ splitNl text := by
        intro l hl
        exact deleteLoop_subset target _ _ _ l (hys ▸ hl)
      have hnl : ∀ l ∈ y :: ys, '\n' ∉ l := fun l hl =>
        not_nl_mem_splitNl text l (hmem0 l hl)
      have hnm : ∀ l ∈ y :: ys, hostLineMentions target l = false := by
        intro l hl
        exact deleteLoop_output_no_match target _ _ _ l (hys ▸ hl)
      rw [splitNl_joinNl (y :: ys) (by simp) hnl]
      rw [deleteLoop_no_match target (y :: ys) hnm false]

/-- Witness for C3: deleting an absent name from a small config leaves the
text unchanged. -/
theorem deleteHostFromConfig_noop_idempotent_witness :
    (∀ l ∈ splitNl ("Host a\n  User u".toList),
      hostLineMentions ("zzz".toList) l = false) ∧
    deleteHostFromConfig ("Host a\n  User u".toList) ("zzz".toList) =
      "Host a\n  User u".toList :=
  ⟨by decide, (deleteHostFromConfig_noop_idempotent _ _).1 (by decide)⟩

/-! ### Claim C4: the frame property of deletion -/

/-- The rewrite loop agrees with the spec-side `deleteSpec` recursion: outside
a skipped region they process lines identically, and inside one the loop
drops exactly the run of empty-or-indented non-`Host` lines. -/
theorem deleteLoop_eq_deleteSpec (t : Str) :
    ∀ (n : Nat) (ls : List Str), ls.length ≤ n →
      (∀ i, deleteLoop t ls false i = deleteSpec t ls) ∧
      (∀ i, deleteLoop t ls true i = deleteSpec t (ls.dropWhile blockBodyLine)) := by
  intro n
  induction n with
  | zero =>
    intro ls hlen
    have h0 : ls = [] := List.length_eq_zero.1 (Nat.le_zero.1 hlen)
    subst h0
    exact ⟨fun _ => by simp [deleteSpec, deleteLoop],
      fun _ => by simp [deleteSpec, deleteLoop]⟩
  | succ n ihn =>
    intro ls hlen
    cases ls with
    | nil =>
      exact ⟨fun _ => by simp [deleteSpec, deleteLoop],
        fun _ => by simp [deleteSpec, deleteLoop]⟩
    | cons line rest =>
      have hr : rest.length ≤ n := by
        simp only [List.length_cons] at hlen
        omega
      constructor
      · intro i
        by_cases hH : isHostLine line = true
        · by_cases hC : containsStr (aliasesOf line) t = true
          · simp only [deleteLoop, deleteSpec, hH, hC, Bool.and_self, if_true]
            exact ((ihn rest hr).2 i)
          · have hC2 : containsStr (aliasesOf line) t = false := by
              simpa using hC
            simp only [deleteLoop, deleteSpec, hH, hC2, Bool.and_false, Bool.true_and,
              Bool.false_eq_true, if_false, if_true]
            exact congrArg (line :: ·) ((ihn rest hr).1 true)
        · have hH2 : isHostLine line = false := by simpa using hH
          simp only [deleteLoop, deleteSpec, hH2, Bool.false_and, Bool.false_eq_true,
            if_false]
          exact congrArg (line :: ·) ((ihn rest hr).1 _)
      · intro i
        by_cases hH : isHostLine line = true
        · have hB : blockBodyLine line = false := by simp [blockBodyLine, hH]
          rw [List.dropWhile_cons, hB]
          simp only [Bool.false_eq_true, if_false]
          by_cases hC : containsStr (aliasesOf line) t = true
          · simp only [deleteLoop, deleteSpec, hH, hC, Bool.and_self, if_true]
            exact ((ihn rest hr).2 i)
          · have hC2 : containsStr (aliasesOf line) t = false := by
              simpa using hC
            simp only [deleteLoop, deleteSpec, hH, hC2, Bool.and_false, Bool.true_and,
              Bool.false_eq_true, if_false, if_true]
            exact congrArg (line :: ·) ((ihn rest hr).1 true)
        · have hH2 : isHostLine line = false := by simpa using hH
          by_cases hSk : (line.isEmpty || lineIndented line) = true
          · have hB : blockBodyLine line = true := by simp [blockBodyLine, hH2, hSk]
            rw [List.dropWhile_cons, hB]
            simp only [if_true]
            have hT : (!line.isEmpty && !lineIndented line) = false := by
              cases h1 : line.isEmpty <;> cases h2 : lineIndented line <;> simp_all
            simp only [deleteLoop, hH2, hT, Bool.false_eq_true, if_false, if_true]
            exact ((ihn rest hr).2 i)
          · have hE : line.isEmpty = false := by
              cases h1 : line.isEmpty
              · rfl
              · exact absurd (by simp [h1]) hSk
            have hI : lineIndented line = false := by
              cases h2 : lineIndented line
              · rfl
              · exact absurd (by simp [h2]) hSk
            have hB : blockBodyLine line = false := by simp [blockBodyLine, hE, hI]
            rw [List.dropWhile_cons, hB]
            simp only [Bool.false_eq_true, if_false]
            have hT : (!line.isEmpty && !lineIndented line) = true := by
              simp [hE, hI]
            simp only [deleteLoop, deleteSpec, hH2, hT, Bool.false_and,
              Bool.false_eq_true, if_false, if_true]
            exact congrArg (line :: ·) ((ihn rest hr).1 false)

/-- C4 counterexample: in `"Host a\nHost a\nX 1"`, deleting `a` suppresses
the first block; the first non-indented non-empty line following it is the
second `Host a` line, which does NOT survive into the output (it is itself a
matching `Host` line and starts another suppressed block), contradicting the
claim that this terminator line always survives. -/
theorem deleteHostFromConfig_terminator_dropped :
    deleteHostFromConfig ("Host a\nHost a\nX 1".toList) ("a".toList) = "X 1".toList ∧
    "Host a".toList ∉
      splitNl (deleteHostFromConfig ("Host a\nHost a\nX 1".toList) ("a".toList)) := by
  constructor
  · decide
  · decide

/-- C4 (amended): `deleteHostFromConfig` equals the spec-side recursion
`deleteSpec`: every line outside a suppressed region passes through
byte-for-byte in its original order (blank lines and comments included) and
is joined with the same newline separator; a `Host` line whose alias list
contains the target suppresses itself and the following run of
empty-or-indented non-`Host` lines, and the line ending that run is processed
normally — so it survives unless it is itself a `Host` line mentioning the
target, in which case it starts another suppressed region. -/
theorem deleteHostFromConfig_eq_deleteSpec (text target : Str) :
    deleteHostFromConfig text target = joinNl (deleteSpec target (splitNl text)) := by
  unfold deleteHostFromConfig
  rw [(deleteLoop_eq_deleteSpec target (splitNl text).length (splitNl text)
    le_rfl).1 false]

/-! ### Claim C5: re-parsing after deletion never shows the deleted alias -/

theorem goIsSpace_cr : goIsSpace '\r' = true := by decide

theorem goTrimRight_concat_cr (x : Str) : goTrimRight (x ++ ['\r']) = goTrimRight x := by
  unfold goTrimRight
  rw [List.reverse_append]
  simp [List.dropWhile_cons, goIsSpace_cr]

theorem goTrimSpace_concat_cr (m : Str) : goTrimSpace (m ++ ['\r']) = goTrimSpace m := by
  unfold goTrimSpace goTrimLeft
  rw [List.dropWhile_append]
  by_cases h : (m.dropWhile goIsSpace).isEmpty = true
  · rw [if_pos h]
    have h2 : m.dropWhile goIsSpace = [] := by
      cases hd : m.dropWhile goIsSpace
      · rfl
      · rw [hd] at h; simp at h
    rw [h2]
    simp [List.dropWhile_cons, goIsSpace_cr, goTrimRight]
  · rw [if_neg h]
    exact goTrimRight_concat_cr _

/-- Stripping a trailing carriage return does not change the trimmed line,
hence none of the directive-matching functions see the difference. -/
theorem goTrimSpace_dropCR (l : Str) : goTrimSpace (dropCR l) = goTrimSpace l := by
  unfold dropCR
  by_cases h : l.getLast? = some '\r'
  · rw [if_pos h]
    obtain ⟨m, rfl⟩ := List.getLast?_eq_some_iff.1 h
    rw [List.dropLast_concat, goTrimSpace_concat_cr]
  · rw [if_neg h]

theorem hostLineMentions_dropCR (t l : Str) :
    hostLineMentions t (dropCR l) = hostLineMentions t l := by
  unfold hostLineMentions isHostLine aliasesOf
  rw [goTrimSpace_dropCR]

theorem isHostLine_dropCR (l : Str) : isHostLine (dropCR l) = isHostLine l := by
  unfold isHostLine
  rw [goTrimSpace_dropCR]

/-- Every scanned line is some split line with its trailing `\r` removed. -/
theorem mem_scanLines (text : Str) :
    ∀ z ∈ scanLines text, ∃ l ∈ splitNl text, z = dropCR l := by
  intro z hz
  simp only [scanLines] at hz
  by_cases h : (splitNl text).getLast? = some []
  · rw [if_pos h] at hz
    rcases List.mem_map.1 hz with ⟨l, hl, rfl⟩
    exact ⟨l, (List.dropLast_sublist _).subset hl, rfl⟩
  · rw [if_neg h] at hz
    rcases List.mem_map.1 hz with ⟨l, hl, rfl⟩
    exact ⟨l, hl, rfl⟩

/-- Every emitted entry's name is drawn from the current alias group. -/
theorem mem_flushHosts {item : HostItem} {hosts : List Str} {hn us : Str}
    (h : item ∈ flushHosts hosts hn us) : item.host ∈ hosts := by
  unfold flushHosts at h
  rcases List.mem_filterMap.1 h with ⟨a, ha, hfa⟩
  by_cases hw : goContainsAny a wildcardChars = true
  · rw [if_pos hw] at hfa
    cases hfa
  · rw [if_neg hw] at hfa
    cases hfa
    exact ha

/-- Every entry emitted by the scanner loop is named either by the open alias
group or by an alias of some `Host` line among the remaining lines. -/
theorem mem_parseLoop {item : HostItem} :
    ∀ (lines hosts : List Str) (hn us : Str),
      item ∈ parseLoop lines hosts hn us →
      item.host ∈ hosts ∨ ∃ l ∈ lines, isHostLine l = true ∧ item.host ∈ aliasesOf l := by
  intro lines
  induction lines with
  | nil =>
    intro hosts hn us h
    simp only [parseLoop] at h
    by_cases he : hosts.isEmpty = true
    · rw [if_pos he] at h
      simp at h
    · rw [if_neg he] at h
      exact Or.inl (mem_flushHosts h)
  | cons raw rest ih =>
    intro hosts hn us h
    simp only [parseLoop] at h
    by_cases hH : isHostLine raw = true
    · rw [hH] at h
      simp only [if_true, List.mem_append] at h
      rcases h with h1 | h1
      · by_cases he : hosts.isEmpty = true
        · rw [if_pos he] at h1
          simp at h1
        · rw [if_neg he] at h1
          exact Or.inl (mem_flushHosts h1)
      · rcases ih (aliasesOf raw) [] [] h1 with h2 | ⟨l, hl, h3, h4⟩
        · exact Or.inr ⟨raw, List.mem_cons_self .., hH, h2⟩
        · exact Or.inr ⟨l, List.mem_cons_of_mem raw hl, h3, h4⟩
    · have hH2 : isHostLine raw = false := by simpa using hH
      rw [hH2] at h
      simp only [Bool.false_eq_true, if_false] at h
      by_cases he : hosts.isEmpty = true
      · rw [if_pos he] at h
        rcases ih hosts hn us h with h2 | ⟨l, hl, h3, h4⟩
        · exact Or.inl h2
        · exact Or.inr ⟨l, List.mem_cons_of_mem raw hl, h3, h4⟩
      · rw [if_neg he] at h
        rcases ih hosts _ _ h with h2 | ⟨l, hl, h3, h4⟩
        · exact Or.inl h2
        · exact Or.inr ⟨l, List.mem_cons_of_mem raw hl, h3, h4⟩

/-- Every parsed entry is named by an alias of some `Host` line. -/
theorem parse_names_from_host_lines (lines : List Str) (item : HostItem)
    (h : item ∈ parseSSHConfigLines lines) :
    ∃ l ∈ lines, isHostLine l = true ∧ item.host ∈ aliasesOf l := by
  rcases mem_parseLoop lines [] [] [] h with h1 | h1
  · simp at h1
  · exact h1

/-- C5: parsing the output of a deletion yields no entry whose name equals
the deleted name — for any config text and any name, wherever and however
often the matching blocks occurred. -/
theorem parse_after_delete_never_contains_target (text target : Str)
    (item : HostItem)
    (h : item ∈ parseSSHConfig (deleteHostFromConfig text target)) :
    item.host ≠ target := by
  intro heq
  obtain ⟨z, hz, hHz, hmem⟩ :=
    parse_names_from_host_lines (scanLines (deleteHostFromConfig text target)) item h
  obtain ⟨l, hl, rfl⟩ := mem_scanLines _ z hz
  unfold deleteHostFromConfig at hl
  cases hys : deleteLoop target (splitNl text) false false with
  | nil =>
    rw [hys] at hl
    simp only [joinNl, splitNl, List.mem_singleton] at hl
    subst hl
    exact absurd hHz (by decide)
  | cons y ys2 =>
    rw [hys] at hl
    have hnl : ∀ m ∈ y :: ys2, '\n' ∉ m := fun m hm =>
      not_nl_mem_splitNl text m (deleteLoop_subset target _ _ _ m (hys ▸ hm))
    rw [splitNl_joinNl (y :: ys2) (by simp) hnl] at hl
    have hno : hostLineMentions target l = false :=
      deleteLoop_output_no_match target _ _ _ l (hys ▸ hl)
    have hyes : hostLineMentions target (dropCR l) = true := by
      unfold hostLineMentions
      rw [hHz]
      subst heq
      simp [containsStr, hmem]
    rw [hostLineMentions_dropCR] at hyes
    rw [hno] at hyes
    cases hyes

/-- Witness for C5 at a concrete config: after deleting `a`, the parse of the
result still contains the entry for `b`, and its name differs from `a`. -/
theorem parse_after_delete_never_contains_target_witness :
    (⟨"b".toList, "2.2.2.2".toList⟩ : HostItem) ∈
      parseSSHConfig (deleteHostFromConfig
        ("Host a\n  Hostname 1.1.1.1\nHost b\n  Hostname 2.2.2.2".toList)
        ("a".toList)) ∧
    ("b".toList : Str) ≠ "a".toList :=
  ⟨by decide,
   parse_after_delete_never_contains_target
     ("Host a\n  Hostname 1.1.1.1\nHost b\n  Hostname 2.2.2.2".toList)
     ("a".toList) ⟨"b".toList, "2.2.2.2".toList⟩ (by decide)⟩

/-! ### Claim C6 (and C1): the parse loop refines the blocks-based reference -/

/-- The accumulator update that the scanner loop applies for one directive
kind over a run of lines. -/
def foldDirective (value? : Str → Option Str) (dirs : List Str) (a : Str) : Str :=
  dirs.foldl (fun acc d =>
    match value? d with
    | some v => v
    | none => acc) a

/-- Folding the per-line overwrite equals taking the value of the last line
carrying the directive (with the start value as the default). -/
theorem foldDirective_eq_getLast (value? : Str → Option Str) :
    ∀ (dirs : List Str) (a : Str),
      foldDirective value? dirs a = ((dirs.filterMap value?).getLast?).getD a := by
  intro dirs
  induction dirs with
  | nil => intro a; rfl
  | cons d rest ih =>
    intro a
    simp only [foldDirective, List.foldl_cons, List.filterMap_cons]
    cases hv : value? d with
    | none =>
      have h2 := ih a
      simp only [foldDirective] at h2
      exact h2
    | some v =>
      have h2 := ih v
      simp only [foldDirective] at h2
      rw [h2]
      cases hrest : (rest.filterMap value?) with
      | nil => simp
      | cons w ws =>
        rw [List.getLast?_cons_cons]
        have hs : ((w :: ws).getLast?).isSome := by
          cases hl : (w :: ws).getLast? with
          | none => exact absurd (List.getLast?_eq_none_iff.1 hl) (by simp)
          | some x => rfl
        obtain ⟨x, hx⟩ := Option.isSome_iff_exists.1 hs
        rw [hx]
        rfl

/-- One directive step of the fold, written out. -/
theorem foldDirective_cons (value? : Str → Option Str) (d : Str) (dirs : List Str)
    (a : Str) :
    foldDirective value? (d :: dirs) a =
      foldDirective value? dirs
        (match value? d with
         | some v => v
         | none => a) := rfl

/-- The spec-side entries of a group are a flush with the last-occurrence
directive values. -/
theorem specEntriesOfGroup_eq_flushHosts (hl : Str) (dirs : List Str) :
    specEntriesOfGroup (hl, dirs) =
      flushHosts (aliasesOf hl) (lastDirectiveValue hostnameValue? dirs)
        (lastDirectiveValue userValue? dirs) := rfl

theorem parseGroups_cons_host {l : Str} (t : List Str) (h : isHostLine l = true) :
    parseGroups (l :: t) =
      (l, t.takeWhile notHostLine) :: parseGroups (t.dropWhile notHostLine) := by
  simp [parseGroups, h]

theorem parseGroups_cons_nonhost {l : Str} (t : List Str) (h : isHostLine l = false) :
    parseGroups (l :: t) = parseGroups t := by
  simp [parseGroups, h]

theorem parseGroups_dropWhile (t : List Str) :
    parseGroups (t.dropWhile notHostLine) = parseGroups t := by
  induction t with
  | nil => rfl
  | cons d t2 ih =>
    cases hH : isHostLine d with
    | true =>
      have hnh : notHostLine d = false := by simp [notHostLine, hH]
      rw [List.dropWhile_cons, hnh]
      simp
    | false =>
      have hnh : notHostLine d = true := by simp [notHostLine, hH]
      rw [List.dropWhile_cons, hnh]
      simp only [if_true]
      rw [ih, parseGroups_cons_nonhost t2 hH]

theorem parseSpec_nil : parseSpec [] = [] := by
  simp [parseSpec, parseGroups]

theorem parseSpec_cons_host {l : Str} (t : List Str) (h : isHostLine l = true) :
    parseSpec (l :: t) =
      specEntriesOfGroup (l, t.takeWhile notHostLine) ++
        parseSpec (t.dropWhile notHostLine) := by
  unfold parseSpec
  rw [parseGroups_cons_host t h, List.flatMap_cons]

theorem parseSpec_cons_nonhost {l : Str} (t : List Str) (h : isHostLine l = false) :
    parseSpec (l :: t) = parseSpec t := by
  unfold parseSpec
  rw [parseGroups_cons_nonhost t h]

theorem parseSpec_dropWhile (t : List Str) :
    parseSpec (t.dropWhile notHostLine) = parseSpec t := by
  unfold parseSpec
  rw [parseGroups_dropWhile]

/-- The scanner loop refines the blocks-based reference: with no open group
it computes exactly the spec-side entries; with an open group it first
flushes that group, resolving each directive to its last occurrence among
the leading non-`Host` lines. -/
theorem parseLoop_eq_parseSpec :
    ∀ (n : Nat) (ls : List Str), ls.length ≤ n →
      (∀ hn us, parseLoop ls [] hn us = parseSpec ls) ∧
      (∀ hosts hn us, hosts ≠ [] →
        parseLoop ls hosts hn us =
          flushHosts hosts
            (foldDirective hostnameValue? (ls.takeWhile notHostLine) hn)
            (foldDirective userValue? (ls.takeWhile notHostLine) us) ++
          parseSpec (ls.dropWhile notHostLine)) := by
  intro n
  induction n with
  | zero =>
    intro ls hlen
    have h0 : ls = [] := List.length_eq_zero.1 (Nat.le_zero.1 hlen)
    subst h0
    constructor
    · intro hn us
      simp [parseLoop, parseSpec_nil]
    · intro hosts hn us hne
      have hie : hosts.isEmpty = false := by
        cases hosts with
        | nil => exact absurd rfl hne
        | cons a b => rfl
      simp [parseLoop, hie, parseSpec_nil, foldDirective]
  | succ n ihn =>
    intro ls hlen
    cases ls with
    | nil =>
      constructor
      · intro hn us
        simp [parseLoop, parseSpec_nil]
      · intro hosts hn us hne
        have hie : hosts.isEmpty = false := by
          cases hosts with
          | nil => exact absurd rfl hne
          | cons a b => rfl
        simp [parseLoop, hie, parseSpec_nil, foldDirective]
    | cons l t =>
      have ht : t.length ≤ n := by
        simp only [List.length_cons] at hlen
        omega
      have key : parseLoop t (aliasesOf l) [] [] =
          specEntriesOfGroup (l, t.takeWhile notHostLine) ++
            parseSpec (t.dropWhile notHostLine) := by
        cases hal : aliasesOf l with
        | nil =>
          rw [(ihn t ht).1 [] [], specEntriesOfGroup_eq_flushHosts, hal]
          simp only [flushHosts, List.filterMap_nil, List.nil_append]
          exact (parseSpec_dropWhile t).symm
        | cons a as =>
          rw [(ihn t ht).2 (a :: as) [] [] (by simp)]
          rw [specEntriesOfGroup_eq_flushHosts, hal]
          rw [foldDirective_eq_getLast, foldDirective_eq_getLast]
          rfl
      constructor
      · intro hn us
        cases hH : isHostLine l with
        | true =>
          simp only [parseLoop]
          rw [hH]
          simp only [if_true, List.isEmpty_nil, List.nil_append]
          rw [key, parseSpec_cons_host t hH]
        | false =>
          simp only [parseLoop]
          rw [hH]
          simp only [Bool.false_eq_true, if_false, List.isEmpty_nil, if_true]
          rw [(ihn t ht).1 hn us, parseSpec_cons_nonhost t hH]
      · intro hosts hn us hne
        have hie : hosts.isEmpty = false := by
          cases hosts with
          | nil => exact absurd rfl hne
          | cons a b => rfl
        cases hH : isHostLine l with
        | true =>
          have hnh : notHostLine l = false := by simp [notHostLine, hH]
          rw [List.takeWhile_cons, List.dropWhile_cons, hnh]
          simp only [Bool.false_eq_true, if_false]
          simp only [parseLoop]
          rw [hH, hie]
          simp only [if_true, Bool.false_eq_true, if_false]
          rw [key, parseSpec_cons_host t hH]
          simp [foldDirective]
        | false =>
          have hnh : notHostLine l = true := by simp [notHostLine, hH]
          rw [List.takeWhile_cons, List.dropWhile_cons, hnh]
          simp only [if_true]
          simp only [parseLoop]
          rw [hH, hie]
          simp only [Bool.false_eq_true, if_false]
          rw [(ihn t ht).2 hosts _ _ hne]
          rw [foldDirective_cons, foldDirective_cons]

/-- C6: parsing emits, for each host block in file order, exactly one entry
per wildcard-free alias in alias order; an alias containing one of
`*`, `?`, `[`, `]`, `!` never produces an entry (so a file of only wildcard
blocks yields an empty sequence); each entry's display hint is
`user@hostname` when both were resolved for the block, the hostname alone
when only it was resolved, and empty otherwise — stated as the equality of
`parseSSHConfig` with the blocks-based reference `parseSpec`. -/
theorem parseSSHConfig_eq_parseSpec (text : Str) :
    parseSSHConfig text = parseSpec (scanLines text) := by
  unfold parseSSHConfig parseSSHConfigLines
  exact (parseLoop_eq_parseSpec (scanLines text).length (scanLines text) le_rfl).1 [] []

/-- C1 counterexample: in a block with two `Hostname` lines the emitted
display hint is `h2`, the value of the SECOND (last) `Hostname` line, not of
the first as the claim states. -/
theorem parse_two_hostnames_shows_last :
    parseSSHConfig ("Host a\n  Hostname h1\n  Hostname h2".toList) =
      [⟨"a".toList, "h2".toList⟩] ∧
    ("h2".toList : Str) ≠ "h1".toList := by
  constructor
  · decide
  · decide

/-- C1 (amended): for a host block with directive lines `dirs` (no further
`Host` line among them, two or more of them `Hostname` lines), each emitted
entry's display hint resolves `Hostname` to the value on the LAST `Hostname`
line — later occurrences overwrite earlier ones — and the same last-occurrence
rule holds for `User`. -/
theorem parse_block_last_directive_wins (hl : Str) (dirs : List Str)
    (hhost : isHostLine hl = true)
    (hdirs : ∀ d ∈ dirs, isHostLine d = false)
    (_htwo : 2 ≤ (dirs.filterMap hostnameValue?).length) :
    parseSSHConfigLines (hl :: dirs) =
      (aliasesOf hl).filterMap (fun a =>
        if goContainsAny a wildcardChars then none
        else some ⟨a, specDisplayHint (lastDirectiveValue hostnameValue? dirs)
          (lastDirectiveValue userValue? dirs)⟩) := by
  unfold parseSSHConfigLines
  rw [(parseLoop_eq_parseSpec (hl :: dirs).length _ le_rfl).1 [] []]
  rw [parseSpec_cons_host dirs hhost]
  have htake : dirs.takeWhile notHostLine = dirs :=
    List.takeWhile_eq_self_iff.2 (fun d hd => by simp [notHostLine, hdirs d hd])
  have hdrop : dirs.dropWhile notHostLine = [] :=
    List.dropWhile_eq_nil_iff.2 (fun d hd => by simp [notHostLine, hdirs d hd])
  rw [htake, hdrop, parseSpec_nil, List.append_nil]
  rfl

/-- Witness for the amended C1 at a concrete two-`Hostname` block. -/
theorem parse_block_last_directive_wins_witness :
    (∀ d ∈ (["  Hostname h1".toList, "  Hostname h2".toList] : List Str),
      isHostLine d = false) ∧
    parseSSHConfigLines
        ("Host a".toList :: ["  Hostname h1".toList, "  Hostname h2".toList]) =
      (aliasesOf ("Host a".toList)).filterMap (fun a =>
        if goContainsAny a wildcardChars then none
        else some ⟨a, specDisplayHint
          (lastDirectiveValue hostnameValue?
            ["  Hostname h1".toList, "  Hostname h2".toList])
          (lastDirectiveValue userValue?
            ["  Hostname h1".toList, "  Hostname h2".toList])⟩) :=
  ⟨by decide,
   parse_block_last_directive_wins ("Host a".toList)
     ["  Hostname h1".toList, "  Hostname h2".toList]
     (by decide) (by decide) (by decide)⟩

/-! ### Claims C7 and C8: the session state machine -/

/-- C7: in the Connecting (spinner) state, a delivered probe result with
`success = false` moves the machine back to Authenticate (the password
screen) with the error message set to the single generic login-failure
message, the password input buffer cleared, and every other field — in
particular the selected host — unchanged; the command returned is `noCmd`,
not a quit, so the failure is recovered, never fatal. -/
theorem update_probe_failure (env : UIEnv) (m : AppModel)
    (h : m.screen = Screen.spinnerScreen) :
    updateModel env m (TeaMsg.loginResultMsg false) =
      ({ m with screen := Screen.passwordScreen, errMsg := loginFailedMsg,
                pwInput := [], loggingIn := false }, TeaCmd.noCmd) := by
  cases m with
  | mk screen sh sd pw pwi em li ss =>
    simp only at h
    subst h
    rfl

/-- Witness for C7 at a concrete model in the spinner state. -/
theorem update_probe_failure_witness :
    (⟨Screen.spinnerScreen, "h1".toList, [], "pw".toList, "buf".toList, [],
        true, false⟩ : AppModel).screen = Screen.spinnerScreen ∧
    updateModel ⟨none, fun s _ => s⟩
        ⟨Screen.spinnerScreen, "h1".toList, [], "pw".toList, "buf".toList, [],
          true, false⟩ (TeaMsg.loginResultMsg false) =
      (⟨Screen.passwordScreen, "h1".toList, [], "pw".toList, [], loginFailedMsg,
          false, false⟩, TeaCmd.noCmd) :=
  ⟨rfl, by rw [update_probe_failure _ _ rfl]⟩

/-- C8 counterexample: the interactive loop can terminate with
`shouldLaunchShell = true` while the captured password is empty (the probe
result is a bare boolean, and an empty password can be submitted), and then
`main` launches NO interactive session: the claim that the caller always
launches the session when `shouldLaunchShell = true` fails at this state. -/
theorem mainEpilogue_empty_password_no_launch :
    (updateModel ⟨none, fun s _ => s⟩
        ⟨Screen.spinnerScreen, "server".toList, [], [], [], [], true, false⟩
        (TeaMsg.loginResultMsg true)).1.shouldSSH = true ∧
    mainEpilogue true ("server".toList) [] = none := by
  exact ⟨rfl, rfl⟩

/-- C8 (amended): when the probe succeeds the loop quits with
`shouldLaunchShell` set and the selected host and password unchanged, and —
provided the selected host AND the captured password are both non-empty —
the caller launches the interactive session with exactly that host and
password (and then exits regardless of the session's outcome, which the
model reflects by not inspecting the launch further). -/
theorem mainEpilogue_launches_after_success (env : UIEnv) (m : AppModel)
    (h : m.screen = Screen.spinnerScreen) :
    ((updateModel env m (TeaMsg.loginResultMsg true)).2 = TeaCmd.quitCmd ∧
     (updateModel env m (TeaMsg.loginResultMsg true)).1.shouldSSH = true ∧
     (updateModel env m (TeaMsg.loginResultMsg true)).1.selectedHost = m.selectedHost ∧
     (updateModel env m (TeaMsg.loginResultMsg true)).1.password = m.password) ∧
    (m.selectedHost ≠ [] → m.password ≠ [] →
      mainEpilogue true m.selectedHost m.password =
        some ⟨m.selectedHost, m.password⟩) := by
  cases m with
  | mk screen sh sd pw pwi em li ss =>
    simp only at h
    subst h
    refine ⟨⟨rfl, rfl, rfl, rfl⟩, ?_⟩
    intro h1 h2
    have e1 : sh.isEmpty = false := by
      cases sh with
      | nil => exact absurd rfl h1
      | cons a b => rfl
    have e2 : pw.isEmpty = false := by
      cases pw with
      | nil => exact absurd rfl h2
      | cons a b => rfl
    simp [mainEpilogue, e1, e2]

/-- Witness for the amended C8 at a concrete state with non-empty host and
password. -/
theorem mainEpilogue_launches_after_success_witness :
    (⟨Screen.spinnerScreen, "srv".toList, [], "pw".toList, [], [], true,
        false⟩ : AppModel).screen = Screen.spinnerScreen ∧
    mainEpilogue true ("srv".toList) ("pw".toList) =
      some ⟨"srv".toList, "pw".toList⟩ :=
  ⟨rfl,
   (mainEpilogue_launches_after_success ⟨none, fun s _ => s⟩
     ⟨Screen.spinnerScreen, "srv".toList, [], "pw".toList, [], [], true, false⟩
     rfl).2 (by decide) (by decide)⟩

/-! ### Claim C9: findDependents -/

/-- C9: `findDependents` returns exactly those blocks whose first `ProxyJump`
directive value equals the given name — every such block and only such
blocks — preserving file order (it is a sublist of `getAllHostBlocks`, which
is in file order), where `getProxyJumpHost` provably picks the value of the
first `ProxyJump` directive line. -/
theorem findDependents_exact (lines : List Str) (hostName : Str) :
    List.Sublist (findDependents lines hostName) (getAllHostBlocks lines) ∧
    (∀ b : hostBlock, b ∈ findDependents lines hostName ↔
      b ∈ getAllHostBlocks lines ∧ getProxyJumpHost b.lines = hostName) ∧
    (∀ ls : List Str, getProxyJumpHost ls = firstProxyJumpValue ls) := by
  refine ⟨List.filter_sublist _, ?_, ?_⟩
  · intro b
    unfold findDependents
    rw [List.mem_filter]
    constructor
    · rintro ⟨h1, h2⟩
      exact ⟨h1, by simpa using h2⟩
    · rintro ⟨h1, h2⟩
      exact ⟨h1, by simp [h2]⟩
  · intro ls
    induction ls with
    | nil => rfl
    | cons line rest ih =>
      simp only [getProxyJumpHost, firstProxyJumpValue, List.findSome?_cons]
      cases hv : proxyJumpValue? line with
      | some v => rfl
      | none => simpa [firstProxyJumpValue] using ih

/-! ### Claim C10: getHostBlock and duplicate aliases -/

/-- Lines in which no `Host` line mentions the queried name contribute
nothing to `getHostBlock`'s collection (outside an open block). -/
theorem getHostBlockLoop_no_match (name : Str) :
    ∀ (xs ys : List Str), (∀ l ∈ xs, hostLineMentions name l = false) →
      getHostBlockLoop name (xs ++ ys) false = getHostBlockLoop name ys false := by
  intro xs
  induction xs with
  | nil => intro ys _; rfl
  | cons line rest ih =>
    intro ys hm
    have hline := hm line (List.mem_cons_self ..)
    have hrest : ∀ l ∈ rest, hostLineMentions name l = false :=
      fun l hl => hm l (List.mem_cons_of_mem line hl)
    simp only [List.cons_append, getHostBlockLoop]
    cases hH : isHostLine line with
    | true =>
      have hC : containsStr (aliasesOf line) name = false := by
        simpa [hostLineMentions, hH] using hline
      rw [hC]
      simp only [Bool.false_eq_true, if_false, if_true]
      exact ih ys hrest
    | false =>
      simp only [Bool.false_eq_true, if_false]
      exact ih ys hrest

/-- Inside the open block, a run of empty-or-indented non-`Host` lines is
collected verbatim. -/
theorem getHostBlockLoop_body (name : Str) :
    ∀ (body ys : List Str),
      (∀ l ∈ body, isHostLine l = false ∧ (l.isEmpty || lineIndented l) = true) →
      getHostBlockLoop name (body ++ ys) true = body ++ getHostBlockLoop name ys true := by
  intro body
  induction body with
  | nil => intro ys _; rfl
  | cons line rest ih =>
    intro ys hm
    obtain ⟨hH, hSk⟩ := hm line (List.mem_cons_self ..)
    have hrest := fun l hl => hm l (List.mem_cons_of_mem line hl)
    simp only [List.cons_append, getHostBlockLoop]
    rw [hH]
    have hT : (!line.isEmpty && !lineIndented line) = false := by
      cases hie : line.isEmpty <;> cases hin : lineIndented line <;> simp_all
    rw [hT]
    simp only [Bool.false_eq_true, if_false, if_true, List.append_eq]
    rw [ih ys hrest]

/-- C10 counterexample: with two blocks both carrying alias `a` and no
intervening top-level non-`Host` line, `getHostBlock` does NOT stop at the
end of the first matching block — the returned block contains the `Host a b`
line and the body line of the LATER block as well, refuting the claim that
later blocks defining the same alias never contribute lines. -/
theorem getHostBlock_merges_later_blocks :
    getHostBlock
        ["Host a".toList, "  X 1".toList, "Host a b".toList, "  Y 2".toList]
        ("a".toList) =
      some ⟨"a".toList,
        ["Host a".toList, "  X 1".toList, "Host a b".toList, "  Y 2".toList]⟩ := by
  decide

/-- C10 (amended): collection starts at the first `Host` line mentioning the
name and stops only at a non-empty, non-indented, non-`Host` line.  When the
first matching block is terminated by such a line, `getHostBlock` returns
exactly that block — the `Host` line plus the following empty-or-indented
non-`Host` lines, named by the queried alias — and nothing after the
terminator contributes.  (Without such a terminator, a later `Host` line
mentioning the alias re-opens collection, as the counterexample shows.) -/
theorem getHostBlock_first_block (pre body rest : List Str) (hl t name : Str)
    (hpre : ∀ l ∈ pre, hostLineMentions name l = false)
    (hhost : isHostLine hl = true)
    (htgt : containsStr (aliasesOf hl) name = true)
    (hbody : ∀ l ∈ body, isHostLine l = false ∧ (l.isEmpty || lineIndented l) = true)
    (hterm : isHostLine t = false ∧ t.isEmpty = false ∧ lineIndented t = false) :
    getHostBlock (pre ++ (hl :: (body ++ (t :: rest)))) name =
      some ⟨name, hl :: body⟩ := by
  unfold getHostBlock
  rw [getHostBlockLoop_no_match name pre _ hpre]
  simp only [getHostBlockLoop]
  rw [hhost, htgt]
  simp only [if_true]
  rw [getHostBlockLoop_body name body (t :: rest) hbody]
  obtain ⟨h1, h2, h3⟩ := hterm
  have hT : (!t.isEmpty && !lineIndented t) = true := by simp [h2, h3]
  simp only [getHostBlockLoop]
  rw [h1, hT]
  simp

/-- Witness for the amended C10 at a concrete config with two blocks for the
same alias separated by a top-level line. -/
theorem getHostBlock_first_block_witness :
    (∀ l ∈ (["# preamble".toList] : List Str),
      hostLineMentions ("a".toList) l = false) ∧
    getHostBlock
        (["# preamble".toList] ++ ("Host a".toList ::
          (["  X 1".toList] ++ ("Top 9".toList ::
            ["Host a c".toList, "  Z 3".toList])))) ("a".toList) =
      some ⟨"a".toList, ["Host a".toList, "  X 1".toList]⟩ :=
  ⟨by decide,
   getHostBlock_first_block ["# preamble".toList] ["  X 1".toList]
     ["Host a c".toList, "  Z 3".toList] ("Host a".toList) ("Top 9".toList)
     ("a".toList) (by decide) (by decide) (by decide) (by decide)
     ⟨by decide, by decide, by decide⟩⟩

/-- C2 counterexample: in `"Host a b\n  Host q\nTop"` the line `"  Host q"`
is an indented line following the matching `Host a b` line and preceding the
next non-empty non-indented line (`"Top"`), so by the claim it belongs to the
deleted block; yet deleting `a` keeps it — the rewrite loop treats any line
whose trimmed form starts with `host ` as a `Host` line first, ending the
suppressed region. -/
theorem delete_keeps_indented_host_line :
    deleteHostFromConfig ("Host a b\n  Host q\nTop".toList) ("a".toList) =
      "  Host q\nTop".toList ∧
    ("  Host q".toList ∈
      splitNl (deleteHostFromConfig ("Host a b\n  Host q\nTop".toList)
        ("a".toList))) ∧
    lineIndented ("  Host q".toList) = true := by
  refine ⟨?_, ?_, ?_⟩ <;> decide
